import Mathlib

/-!
Shallow embedding of the relationship-graph engine (ember-data style graph):
collection edges, the remove-from-related-records operation, the graph's
remote/local flush queues, the transaction-ref protocol, and the node-table
lifecycle operations (get/has/remove/destroy).

Identifiers and field names are modelled as natural numbers; JS `Set`s as
`Finset`, JS arrays as `List`, JS `Map`/dictionaries as functions into
`Option`. Debug `assert`s that guard behaviour become `Except.error` results;
debug asserts that merely log are noted in comments.
-/

namespace GraphModel

/-- Identifiers (`StableRecordIdentifier`) are opaque keys; we model them as ℕ. -/
abbrev Ident := ℕ

/-- Relationship field names, modelled as ℕ. -/
abbrev Field := ℕ

/-- The three edge kinds of `UpgradedMeta.kind`. -/
inductive RelKind
  | belongsTo
  | hasMany
  | implicit
deriving DecidableEq, Repr

/-- The slice of `UpgradedMeta` the modelled code reads: the edge kind, the
field key and the inverse field key. -/
structure UpgradedMeta where
  kind : RelKind
  key : Field
  inverseKey : Field
deriving DecidableEq, Repr

/-- Modelled from the spec: the edge-state value object of `-state.ts` (not
under src/). Spec §4.2: "A value object with two booleans: `hasReceivedData`
... and `isEmpty`". -/
structure RelationshipState where
  hasReceivedData : Bool
  isEmpty : Bool
deriving DecidableEq, Repr

/-- Modelled from the spec: `createState` of `-state.ts` (not under src/).
A fresh edge has never received remote data and is empty. -/
def createState : RelationshipState :=
  { hasReceivedData := false, isEmpty := true }

/-- `CollectionRelationship` from `edges/collection.ts`: membership `Set`s
become `Finset Ident`, the ordered arrays become `List Ident`; `meta` and
`links` payloads are opaque (modelled as ℕ). -/
structure CollectionRelationship where
  definition : UpgradedMeta
  identifier : Ident
  state : RelationshipState
  localMembers : Finset Ident
  remoteMembers : Finset Ident
  localState : List Ident
  remoteState : List Ident
  meta : Option ℕ
  links : Option ℕ
  transactionRef : ℕ
deriving DecidableEq

/-- `createCollectionRelationship` from `edges/collection.ts`. -/
def createCollectionRelationship (definition : UpgradedMeta) (identifier : Ident) :
    CollectionRelationship :=
  { definition := definition
    identifier := identifier
    state := createState
    localMembers := ∅
    remoteMembers := ∅
    localState := []
    remoteState := []
    meta := none
    links := none
    transactionRef := 0 }

/-- The external payload shape `CollectionResourceRelationship`: each key is
optional (absent = the key is omitted from the JS object). -/
structure CollectionResourceRelationship where
  data : Option (List Ident)
  links : Option ℕ
  meta : Option ℕ
deriving DecidableEq, Repr

/-- `legacyGetCollectionRelationshipData` from `edges/collection.ts`:
`data` is set to a copy of `localState` only when `state.hasReceivedData`;
`links`/`meta` are copied over when non-null. -/
def legacyGetCollectionRelationshipData (source : CollectionRelationship) :
    CollectionResourceRelationship :=
  { data := if source.state.hasReceivedData then some source.localState else none
    links := source.links
    meta := source.meta }

/-- A recorded call to `removeFromInverse` (its implementation lives in
`operations/replace-related-records.ts`, not under src/); we record the
arguments the src code passes it. -/
structure InverseCall where
  value : Ident
  inverseKey : Field
  record : Ident
  isRemote : Bool
deriving DecidableEq, Repr

/-- `removeRelatedRecord` from `operations/remove-from-related-records.ts`.
Returns the updated edge and the `removeFromInverse` calls it issues.
The source reads `localMembers`/`localState` unconditionally (the `isRemote`
flag is only forwarded to `removeFromInverse`). When the value is absent from
`localMembers` the function returns early. The debug assert
"expected localMembers and localState to be in sync" fires when
`indexOf` returns -1; in optimized builds `splice(-1, 1)` then removes the
last element, which we model with `dropLast`. -/
def removeRelatedRecord (relationship : CollectionRelationship) (record : Ident)
    (value : Ident) (isRemote : Bool) : CollectionRelationship × List InverseCall :=
  if value ∈ relationship.localMembers then
    let localState :=
      match relationship.localState.indexOf? value with
      | some index => relationship.localState.eraseIdx index
      | none => relationship.localState.dropLast
    ({ relationship with
        localMembers := relationship.localMembers.erase value
        localState := localState },
      [{ value := value
         inverseKey := relationship.definition.inverseKey
         record := record
         isRemote := isRemote }])
  else
    (relationship, [])

/-- The `value` of a `RemoveFromRelatedRecordsOperation`: the source accepts a
single identifier or an array of identifiers (`Array.isArray(value)` check). -/
inductive OpValue
  | single : Ident → OpValue
  | many : List Ident → OpValue
deriving DecidableEq, Repr

/-- The `for` loop of `removeFromRelatedRecords` over an array value: calls
`removeRelatedRecord` on each element in order, accumulating the issued
`removeFromInverse` calls. -/
def removeRelatedRecords (relationship : CollectionRelationship) (record : Ident)
    (values : List Ident) (isRemote : Bool) : CollectionRelationship × List InverseCall :=
  match values with
  | [] => (relationship, [])
  | v :: vs =>
      let step := removeRelatedRecord relationship record v isRemote
      let rest := removeRelatedRecords step.1 record vs isRemote
      (rest.1, step.2 ++ rest.2)

/-- `removeFromRelatedRecords` from `operations/remove-from-related-records.ts`,
modelled directly on the resolved collection edge (the source resolves it via
`graph.get` and asserts `isHasMany`; the trailing `notifyChange` does not touch
edge state). -/
def removeFromRelatedRecords (relationship : CollectionRelationship) (record : Ident)
    (value : OpValue) (isRemote : Bool) : CollectionRelationship × List InverseCall :=
  match value with
  | .many vs => removeRelatedRecords relationship record vs isRemote
  | .single v => removeRelatedRecord relationship record v isRemote

/-- The membership/order agreement invariant of a collection edge (the source's
own assert calls this "localMembers and localState ... in sync"): each
membership set holds exactly the elements of the corresponding ordered
sequence, and the sequences are duplicate-free. -/
def collectionInSync (rel : CollectionRelationship) : Prop :=
  rel.localState.Nodup ∧ (∀ x, x ∈ rel.localMembers ↔ x ∈ rel.localState) ∧
    rel.remoteState.Nodup ∧ (∀ x, x ∈ rel.remoteMembers ↔ x ∈ rel.remoteState)

/-- The JS `indexOf`-then-`splice` removal equals `List.erase` whenever the
value is present. -/
theorem indexOf_splice_eq_erase (l : List Ident) (value : Ident) (hv : value ∈ l) :
    (match l.indexOf? value with
      | some index => l.eraseIdx index
      | none => l.dropLast) = l.erase value := by
  cases h : l.indexOf? value with
  | none =>
      exact absurd (List.indexOf?_eq_none_iff.mp h value hv) (by simp)
  | some index =>
      have hidx : l.indexOf value = index := by
        rw [List.indexOf_eq_indexOf?, h]
      simp only [← hidx, List.eraseIdx_indexOf_eq_erase]

theorem removeRelatedRecord_of_not_mem {rel : CollectionRelationship}
    {record value : Ident} {isRemote : Bool} (h : value ∉ rel.localMembers) :
    removeRelatedRecord rel record value isRemote = (rel, []) := by
  simp [removeRelatedRecord, h]

/-- `removeRelatedRecord` never adds a member. -/
theorem not_mem_removeRelatedRecord {rel : CollectionRelationship}
    {record value x : Ident} {isRemote : Bool} (h : x ∉ rel.localMembers) :
    x ∉ (removeRelatedRecord rel record value isRemote).1.localMembers := by
  unfold removeRelatedRecord
  split
  · simp only [Finset.mem_erase, not_and]
    intro _
    exact h
  · exact h

/-- The removed value is absent from the resulting membership set. -/
theorem removed_not_mem_removeRelatedRecord (rel : CollectionRelationship)
    (record value : Ident) (isRemote : Bool) :
    value ∉ (removeRelatedRecord rel record value isRemote).1.localMembers := by
  unfold removeRelatedRecord
  split
  · simp
  · next h => exact h

theorem not_mem_removeRelatedRecords {rel : CollectionRelationship}
    {record x : Ident} {values : List Ident} {isRemote : Bool}
    (h : x ∉ rel.localMembers) :
    x ∉ (removeRelatedRecords rel record values isRemote).1.localMembers := by
  induction values generalizing rel with
  | nil => exact h
  | cons v vs ih =>
      exact ih (not_mem_removeRelatedRecord h)

/-- After the loop, every processed value is absent from the membership set. -/
theorem forall_not_mem_removeRelatedRecords (rel : CollectionRelationship)
    (record : Ident) (values : List Ident) (isRemote : Bool) :
    ∀ v ∈ values, v ∉ (removeRelatedRecords rel record values isRemote).1.localMembers := by
  induction values generalizing rel with
  | nil => intro v hv; cases hv
  | cons w ws ih =>
      intro v hv
      show v ∉ (removeRelatedRecords (removeRelatedRecord rel record w isRemote).1
          record ws isRemote).1.localMembers
      rcases List.mem_cons.mp hv with h | h
      · subst h
        exact not_mem_removeRelatedRecords
          (removed_not_mem_removeRelatedRecord rel record v isRemote)
      · exact ih _ v h

/-- The loop is a complete no-op when every value is already absent. -/
theorem removeRelatedRecords_of_forall_not_mem {rel : CollectionRelationship}
    {record : Ident} {values : List Ident} {isRemote : Bool}
    (h : ∀ v ∈ values, v ∉ rel.localMembers) :
    removeRelatedRecords rel record values isRemote = (rel, []) := by
  induction values with
  | nil => rfl
  | cons v vs ih =>
      have hstep : removeRelatedRecord rel record v isRemote = (rel, []) :=
        removeRelatedRecord_of_not_mem (h v (List.mem_cons_self v vs))
      have htail : ∀ w ∈ vs, w ∉ rel.localMembers := fun w hw => h w (List.mem_cons_of_mem v hw)
      simp [removeRelatedRecords, hstep, ih htail]

/-- When the value is present, `removeRelatedRecord` erases it from both the
local membership set and the local ordered sequence, and issues exactly one
inverse-removal call. -/
theorem removeRelatedRecord_of_mem {rel : CollectionRelationship}
    {record value : Ident} {isRemote : Bool}
    (hmem : value ∈ rel.localMembers) (hv : value ∈ rel.localState) :
    removeRelatedRecord rel record value isRemote =
      ({ rel with
          localMembers := rel.localMembers.erase value
          localState := rel.localState.erase value },
        [{ value := value
           inverseKey := rel.definition.inverseKey
           record := record
           isRemote := isRemote }]) := by
  simp only [removeRelatedRecord, if_pos hmem, indexOf_splice_eq_erase rel.localState value hv]

/-- `removeRelatedRecord` preserves membership/order agreement. -/
theorem collectionInSync_removeRelatedRecord {rel : CollectionRelationship}
    {record value : Ident} {isRemote : Bool} (h : collectionInSync rel) :
    collectionInSync (removeRelatedRecord rel record value isRemote).1 := by
  obtain ⟨hnl, hl, hnr, hr⟩ := h
  by_cases hmem : value ∈ rel.localMembers
  · rw [removeRelatedRecord_of_mem hmem ((hl value).mp hmem)]
    refine ⟨hnl.erase value, ?_, hnr, hr⟩
    intro x
    rw [Finset.mem_erase, List.Nodup.mem_erase_iff hnl]
    exact and_congr_right fun _ => hl x
  · rw [removeRelatedRecord_of_not_mem hmem]
    exact ⟨hnl, hl, hnr, hr⟩

/-- The loop over an array value preserves membership/order agreement. -/
theorem collectionInSync_removeRelatedRecords {rel : CollectionRelationship}
    {record : Ident} {values : List Ident} {isRemote : Bool} (h : collectionInSync rel) :
    collectionInSync (removeRelatedRecords rel record values isRemote).1 := by
  induction values generalizing rel with
  | nil => exact h
  | cons v vs ih => exact ih (collectionInSync_removeRelatedRecord h)

/-- `removeFromRelatedRecords` preserves membership/order agreement, for single
and array-shaped values alike. -/
theorem collectionInSync_removeFromRelatedRecords {rel : CollectionRelationship}
    {record : Ident} {value : OpValue} {isRemote : Bool} (h : collectionInSync rel) :
    collectionInSync (removeFromRelatedRecords rel record value isRemote).1 := by
  cases value with
  | many vs => exact collectionInSync_removeRelatedRecords h
  | single v => exact collectionInSync_removeRelatedRecord h

/-- A concrete hasMany edge whose member 1 is present on both the local and the
remote side, in set and sequence alike. -/
def rel0 : CollectionRelationship :=
  { definition := { kind := .hasMany, key := 0, inverseKey := 1 }
    identifier := 0
    state := { hasReceivedData := true, isEmpty := false }
    localMembers := {1}
    remoteMembers := {1}
    localState := [1]
    remoteState := [1]
    meta := none
    links := none
    transactionRef := 0 }

theorem rel0_inSync : collectionInSync rel0 :=
  ⟨by decide, fun x => by simp [rel0], by decide, fun x => by simp [rel0]⟩

/-- C1: a collection edge's membership sets agree with its ordered sequences:
a freshly created collection edge has both sets and both sequences empty (and
is trivially in sync), and `removeRelatedRecord` preserves the agreement,
removing the value from the local set and the local sequence together, never
from only one. -/
theorem C1_collection_membership_order_agreement (m : UpgradedMeta)
    (id record value : Ident) (isRemote : Bool) (rel : CollectionRelationship)
    (h : collectionInSync rel) :
    (createCollectionRelationship m id).localMembers = ∅ ∧
    (createCollectionRelationship m id).remoteMembers = ∅ ∧
    (createCollectionRelationship m id).localState = [] ∧
    (createCollectionRelationship m id).remoteState = [] ∧
    collectionInSync (createCollectionRelationship m id) ∧
    collectionInSync (removeRelatedRecord rel record value isRemote).1 ∧
    (value ∈ rel.localMembers →
      value ∉ (removeRelatedRecord rel record value isRemote).1.localMembers ∧
      value ∉ (removeRelatedRecord rel record value isRemote).1.localState) := by
  obtain ⟨hnl, hl, hnr, hr⟩ := h
  refine ⟨rfl, rfl, rfl, rfl,
    ⟨List.nodup_nil, fun x => by simp [createCollectionRelationship],
      List.nodup_nil, fun x => by simp [createCollectionRelationship]⟩,
    collectionInSync_removeRelatedRecord ⟨hnl, hl, hnr, hr⟩, ?_⟩
  intro hmem
  rw [removeRelatedRecord_of_mem hmem ((hl value).mp hmem)]
  exact ⟨Finset.not_mem_erase value rel.localMembers, hnl.not_mem_erase⟩

theorem C1_collection_membership_order_agreement_witness :
    collectionInSync rel0 ∧
    collectionInSync (removeRelatedRecord rel0 0 1 true).1 ∧
    (1 ∈ rel0.localMembers ∧
      1 ∉ (removeRelatedRecord rel0 0 1 true).1.localMembers ∧
      1 ∉ (removeRelatedRecord rel0 0 1 true).1.localState) :=
  have h := C1_collection_membership_order_agreement
    { kind := .hasMany, key := 0, inverseKey := 1 } 0 0 1 true rel0 rel0_inSync
  ⟨rel0_inSync, h.2.2.2.2.2.1, by decide, h.2.2.2.2.2.2 (by decide)⟩

/-- C3 counterexample: with `isRemote = true`, the source's
`removeRelatedRecord` still mutates the local side and leaves the remote side
untouched: starting from an edge holding 1 on both sides, the call removes 1
from the local set and sequence while the remote set and sequence keep 1. -/
theorem C3_counterexample_remote_flag_ignored_for_side :
    (removeRelatedRecord rel0 0 1 true).1.remoteMembers = rel0.remoteMembers ∧
    1 ∈ (removeRelatedRecord rel0 0 1 true).1.remoteMembers ∧
    (removeRelatedRecord rel0 0 1 true).1.remoteState = [1] ∧
    1 ∉ (removeRelatedRecord rel0 0 1 true).1.localMembers ∧
    (removeRelatedRecord rel0 0 1 true).1.localState = [] := by
  decide

/-- C3 (amended): `removeRelatedRecord` applies the membership change to the
local side (local membership set and local ordered sequence) regardless of
`isRemote`; the remote side is never touched, and `isRemote` is only forwarded
unchanged on the issued inverse-removal call. -/
theorem C3_remove_targets_local_side (rel : CollectionRelationship)
    (record value : Ident) (isRemote : Bool) :
    (removeRelatedRecord rel record value isRemote).1.remoteMembers = rel.remoteMembers ∧
    (removeRelatedRecord rel record value isRemote).1.remoteState = rel.remoteState ∧
    (value ∈ rel.localMembers →
      (removeRelatedRecord rel record value isRemote).1.localMembers
        = rel.localMembers.erase value) ∧
    (∀ c ∈ (removeRelatedRecord rel record value isRemote).2, c.isRemote = isRemote) := by
  unfold removeRelatedRecord
  by_cases hmem : value ∈ rel.localMembers
  · rw [if_pos hmem]
    refine ⟨rfl, rfl, fun _ => rfl, ?_⟩
    intro c hc
    rw [List.mem_singleton] at hc
    rw [hc]
  · rw [if_neg hmem]
    exact ⟨rfl, rfl, fun h => absurd h hmem, fun c hc => absurd hc (List.not_mem_nil c)⟩

theorem C3_remove_targets_local_side_witness :
    (removeRelatedRecord rel0 0 1 true).1.remoteMembers = rel0.remoteMembers ∧
    (1 ∈ rel0.localMembers ∧
      (removeRelatedRecord rel0 0 1 true).1.localMembers = rel0.localMembers.erase 1) :=
  ⟨(C3_remove_targets_local_side rel0 0 1 true).1,
    by decide, (C3_remove_targets_local_side rel0 0 1 true).2.2.1 (by decide)⟩

/-- C5: `removeRelatedRecord` is a no-op for a value absent from the local
membership set, and applying the same `removeFromRelatedRecords` operation
twice in a row leaves the edge exactly as after the first application (the
second application is a complete no-op: same edge, no inverse calls). -/
theorem C5_removeFromRelatedRecords_idempotent (rel : CollectionRelationship)
    (record v : Ident) (value : OpValue) (isRemote : Bool)
    (habsent : v ∉ rel.localMembers) :
    removeRelatedRecord rel record v isRemote = (rel, []) ∧
    removeFromRelatedRecords
        (removeFromRelatedRecords rel record value isRemote).1 record value isRemote
      = ((removeFromRelatedRecords rel record value isRemote).1, []) := by
  refine ⟨removeRelatedRecord_of_not_mem habsent, ?_⟩
  cases value with
  | many vs =>
      exact removeRelatedRecords_of_forall_not_mem
        (forall_not_mem_removeRelatedRecords rel record vs isRemote)
  | single w =>
      exact removeRelatedRecord_of_not_mem
        (removed_not_mem_removeRelatedRecord rel record w isRemote)

theorem C5_removeFromRelatedRecords_idempotent_witness :
    2 ∉ rel0.localMembers ∧
    removeFromRelatedRecords
        (removeFromRelatedRecords rel0 0 (.single 1) true).1 0 (.single 1) true
      = ((removeFromRelatedRecords rel0 0 (.single 1) true).1, []) :=
  ⟨by decide,
    (C5_removeFromRelatedRecords_idempotent rel0 0 2 (.single 1) true (by decide)).2⟩

/-- C6: the external collection payload contains `data` iff the edge's
`hasReceivedData` flag is set; when present, `data` is (a copy of) the edge's
local ordered sequence, and an edge that never received data omits `data`. -/
theorem C6_payload_data_gated_on_hasReceivedData (source : CollectionRelationship) :
    ((legacyGetCollectionRelationshipData source).data.isSome
      = source.state.hasReceivedData) ∧
    (source.state.hasReceivedData = true →
      (legacyGetCollectionRelationshipData source).data = some source.localState) ∧
    (source.state.hasReceivedData = false →
      (legacyGetCollectionRelationshipData source).data = none) := by
  unfold legacyGetCollectionRelationshipData
  cases h : source.state.hasReceivedData with
  | false => exact ⟨by simp [h], fun hc => by simp at hc, fun _ => by simp [h]⟩
  | true => exact ⟨by simp [h], fun _ => by simp [h], fun hc => by simp at hc⟩

theorem C6_payload_data_gated_on_hasReceivedData_witness :
    (rel0.state.hasReceivedData = true ∧
      (legacyGetCollectionRelationshipData rel0).data = some rel0.localState) ∧
    ((createCollectionRelationship { kind := .hasMany, key := 0, inverseKey := 1 } 0
        ).state.hasReceivedData = false ∧
      (legacyGetCollectionRelationshipData
        (createCollectionRelationship { kind := .hasMany, key := 0, inverseKey := 1 } 0)
        ).data = none) :=
  ⟨⟨by decide, (C6_payload_data_gated_on_hasReceivedData rel0).2.1 (by decide)⟩,
    ⟨by decide,
      (C6_payload_data_gated_on_hasReceivedData
        (createCollectionRelationship { kind := .hasMany, key := 0, inverseKey := 1 } 0)
        ).2.2 (by decide)⟩⟩

/-! ## The graph's deferred flush queues (`push`, `_flushRemoteQueue`,
`_scheduleLocalSync`, `_flushLocalQueue`) -/

/-- The operation tags of `RemoteRelationshipOperation` plus `deleteRecord`. -/
inductive OpTag
  | deleteRecord
  | replaceRelatedRecord
  | updateRelationship
  | addToRelatedRecords
  | removeFromRelatedRecords
  | replaceRelatedRecords
deriving DecidableEq, Repr

/-- A queued remote operation: its tag plus the target record and field. -/
structure RemoteOp where
  op : OpTag
  record : Ident
  field : Field
deriving DecidableEq, Repr

/-- The three pending buckets of `Graph._pushedUpdates`. -/
structure PushedUpdates where
  belongsTo : List RemoteOp
  hasMany : List RemoteOp
  deletions : List RemoteOp
deriving DecidableEq, Repr

/-- The two scheduler queue names used by `getStore(this.store)._schedule`. -/
inductive QueueName
  | coalesce
  | sync
deriving DecidableEq, Repr

/-- The projection of `Graph` state that the queueing/flushing code touches:
the pending buckets, the two pending-flush flags and the dirty-relationship
set. `scheduled` records the `_schedule(queue, cb)` calls issued to the
external scheduler, in order (relationships in `_updatedRelationships` are
identified by a numeric key). -/
structure GraphQueues where
  pushedUpdates : PushedUpdates
  willSyncRemote : Bool
  willSyncLocal : Bool
  updatedRelationships : Finset ℕ
  scheduled : List QueueName
deriving DecidableEq

/-- The queue fields as initialized by the `Graph` constructor. -/
def graphQueuesInit : GraphQueues :=
  { pushedUpdates := { belongsTo := [], hasMany := [], deletions := [] }
    willSyncRemote := false
    willSyncLocal := false
    updatedRelationships := ∅
    scheduled := [] }

/-- The bucket a pushed operation lands in: `deleteRecord` ops go to
`deletions`, `replaceRelatedRecord` ops to `belongsTo`, and everything else to
the bucket named by the resolved relationship's `definition.kind`. -/
inductive Bucket
  | deletions
  | hasMany
  | belongsTo
deriving DecidableEq, Repr

/-- The bucket-selection logic of `Graph.push`, with the relationship-kind
resolution (`this.get(op.record, op.field).definition.kind`) abstracted as
`kindOf`. -/
def classifyOp (kindOf : Ident → Field → RelKind) (op : RemoteOp) : Bucket :=
  if op.op = .deleteRecord then .deletions
  else if op.op = .replaceRelatedRecord then .belongsTo
  else
    match kindOf op.record op.field with
    | .hasMany => .hasMany
    | _ => .belongsTo

/-- The scheduling tail of `Graph.push`: schedule a coalesced remote flush
only when none is pending. -/
def scheduleRemote (g : GraphQueues) : GraphQueues :=
  if !g.willSyncRemote then
    { g with willSyncRemote := true, scheduled := g.scheduled ++ [QueueName.coalesce] }
  else g

/-- `Graph.push`: enqueue a remote operation into one of the three buckets
(the resolved edge must not be implicit), then schedule a coalesced flush if
none is pending. `kindOf` abstracts the `this.get(...)` kind resolution. -/
def Graph.push (kindOf : Ident → Field → RelKind) (g : GraphQueues) (op : RemoteOp) :
    Except String GraphQueues :=
  if op.op = .deleteRecord then
    .ok (scheduleRemote { g with
      pushedUpdates := { g.pushedUpdates with
        deletions := g.pushedUpdates.deletions ++ [op] } })
  else if op.op = .replaceRelatedRecord then
    .ok (scheduleRemote { g with
      pushedUpdates := { g.pushedUpdates with
        belongsTo := g.pushedUpdates.belongsTo ++ [op] } })
  else if kindOf op.record op.field = .implicit then
    .error "Cannot push a remote update for an implicit relationship"
  else if kindOf op.record op.field = .hasMany then
    .ok (scheduleRemote { g with
      pushedUpdates := { g.pushedUpdates with
        hasMany := g.pushedUpdates.hasMany ++ [op] } })
  else
    .ok (scheduleRemote { g with
      pushedUpdates := { g.pushedUpdates with
        belongsTo := g.pushedUpdates.belongsTo ++ [op] } })

/-- A sequence of `push` calls, in order. -/
def Graph.pushAll (kindOf : Ident → Field → RelKind) (g : GraphQueues)
    (ops : List RemoteOp) : Except String GraphQueues :=
  match ops with
  | [] => .ok g
  | op :: rest =>
      match Graph.push kindOf g op with
      | .error e => .error e
      | .ok g1 => Graph.pushAll kindOf g1 rest

/-- `Graph._flushRemoteQueue`, projected to the queue state: bail out when no
flush is pending; otherwise clear the flag, drain and clear the three buckets,
and apply `this.update(op, true)` to all queued deletions, then all queued
hasMany updates, then all queued belongsTo updates. The returned list is that
application order. (Opening `_transaction` and `_finalize` act on the
transaction state, modelled separately.) -/
def Graph.flushRemoteQueue (g : GraphQueues) : GraphQueues × List RemoteOp :=
  if !g.willSyncRemote then (g, [])
  else
    ({ g with
        willSyncRemote := false
        pushedUpdates := { belongsTo := [], hasMany := [], deletions := [] } },
      g.pushedUpdates.deletions ++ g.pushedUpdates.hasMany ++ g.pushedUpdates.belongsTo)

/-- `Graph._scheduleLocalSync`: record the dirty relationship and schedule a
local sync flush only when none is pending. -/
def Graph.scheduleLocalSync (g : GraphQueues) (relationship : ℕ) : GraphQueues :=
  let g1 := { g with updatedRelationships := insert relationship g.updatedRelationships }
  if !g1.willSyncLocal then
    { g1 with willSyncLocal := true, scheduled := g1.scheduled ++ [QueueName.sync] }
  else g1

/-- `Graph._flushLocalQueue`: bail out when no local flush is pending;
otherwise clear the flag, drain the dirty set and run `syncRemoteToLocal` on
every drained relationship (the returned set). -/
def Graph.flushLocalQueue (g : GraphQueues) : GraphQueues × Finset ℕ :=
  if !g.willSyncLocal then (g, ∅)
  else
    ({ g with willSyncLocal := false, updatedRelationships := ∅ },
      g.updatedRelationships)

/-- Appending an operation to the bucket named `b`. -/
def PushedUpdates.enqueue (p : PushedUpdates) (b : Bucket) (op : RemoteOp) : PushedUpdates :=
  match b with
  | .deletions => { p with deletions := p.deletions ++ [op] }
  | .hasMany => { p with hasMany := p.hasMany ++ [op] }
  | .belongsTo => { p with belongsTo := p.belongsTo ++ [op] }

theorem enqueue_deletions (p : PushedUpdates) (b : Bucket) (op : RemoteOp) :
    (p.enqueue b op).deletions
      = p.deletions ++ (if b = .deletions then [op] else []) := by
  cases b <;> simp [PushedUpdates.enqueue]

theorem enqueue_hasMany (p : PushedUpdates) (b : Bucket) (op : RemoteOp) :
    (p.enqueue b op).hasMany
      = p.hasMany ++ (if b = .hasMany then [op] else []) := by
  cases b <;> simp [PushedUpdates.enqueue]

theorem enqueue_belongsTo (p : PushedUpdates) (b : Bucket) (op : RemoteOp) :
    (p.enqueue b op).belongsTo
      = p.belongsTo ++ (if b = .belongsTo then [op] else []) := by
  cases b <;> simp [PushedUpdates.enqueue]

/-- A successful `push` is the bucket enqueue selected by `classifyOp`,
followed by the scheduling step. -/
theorem push_ok_form {kindOf : Ident → Field → RelKind} {g g1 : GraphQueues}
    {op : RemoteOp} (h : Graph.push kindOf g op = .ok g1) :
    g1 = scheduleRemote
      { g with pushedUpdates := g.pushedUpdates.enqueue (classifyOp kindOf op) op } := by
  unfold Graph.push at h
  unfold classifyOp PushedUpdates.enqueue
  by_cases h1 : op.op = .deleteRecord
  · simp only [if_pos h1] at h ⊢
    exact (Except.ok.inj h).symm
  · by_cases h2 : op.op = .replaceRelatedRecord
    · simp only [if_neg h1, if_pos h2] at h ⊢
      exact (Except.ok.inj h).symm
    · cases hk : kindOf op.record op.field with
      | implicit => simp [h1, h2, hk] at h
      | hasMany =>
          simp only [if_neg h1, if_neg h2, hk] at h ⊢
          simp at h ⊢
          exact h.symm
      | belongsTo =>
          simp only [if_neg h1, if_neg h2, hk] at h ⊢
          simp at h ⊢
          exact h.symm

theorem scheduleRemote_pushedUpdates (g : GraphQueues) :
    (scheduleRemote g).pushedUpdates = g.pushedUpdates := by
  unfold scheduleRemote
  split <;> rfl

theorem scheduleRemote_willSyncRemote (g : GraphQueues) :
    (scheduleRemote g).willSyncRemote = true := by
  unfold scheduleRemote
  cases hw : g.willSyncRemote <;> simp [hw]

theorem scheduleRemote_scheduled (g : GraphQueues) :
    (scheduleRemote g).scheduled
      = g.scheduled ++ (if g.willSyncRemote then [] else [QueueName.coalesce]) := by
  unfold scheduleRemote
  cases hw : g.willSyncRemote <;> simp [hw]

/-- After any run of successful pushes, each bucket holds exactly the pushed
operations classified into it, in push order. -/
theorem pushAll_ok_buckets {kindOf : Ident → Field → RelKind} {g g1 : GraphQueues}
    {ops : List RemoteOp} (h : Graph.pushAll kindOf g ops = .ok g1) :
    g1.pushedUpdates.deletions = g.pushedUpdates.deletions
        ++ ops.filter (fun op => classifyOp kindOf op == Bucket.deletions) ∧
    g1.pushedUpdates.hasMany = g.pushedUpdates.hasMany
        ++ ops.filter (fun op => classifyOp kindOf op == Bucket.hasMany) ∧
    g1.pushedUpdates.belongsTo = g.pushedUpdates.belongsTo
        ++ ops.filter (fun op => classifyOp kindOf op == Bucket.belongsTo) := by
  induction ops generalizing g with
  | nil =>
      cases h
      simp [Graph.pushAll]
  | cons op rest ih =>
      unfold Graph.pushAll at h
      cases hp : Graph.push kindOf g op with
      | error e => rw [hp] at h; cases h
      | ok g2 =>
          rw [hp] at h
          have hform := push_ok_form hp
          have hpu : g2.pushedUpdates
              = g.pushedUpdates.enqueue (classifyOp kindOf op) op := by
            rw [hform, scheduleRemote_pushedUpdates]
          obtain ⟨hd2, hh2, hb2⟩ := ih h
          rw [hpu, enqueue_deletions] at hd2
          rw [hpu, enqueue_hasMany] at hh2
          rw [hpu, enqueue_belongsTo] at hb2
          refine ⟨?_, ?_, ?_⟩ <;>
            [rw [hd2]; rw [hh2]; rw [hb2]] <;>
            by_cases hc : classifyOp kindOf op = .deletions <;>
            by_cases hc2 : classifyOp kindOf op = .hasMany <;>
            by_cases hc3 : classifyOp kindOf op = .belongsTo <;>
            simp [List.filter_cons, hc, hc2, hc3]

/-- In `A ++ B` where every element of `A` satisfies `P` and none of `B` does,
any position holding a `P`-element precedes any position holding a
non-`P`-element. -/
theorem getElem?_lt_of_append_split {α : Type} {P : α → Prop} {A B : List α}
    (hA : ∀ a ∈ A, P a) (hB : ∀ b ∈ B, ¬P b) {i j : ℕ} {x y : α}
    (hx : (A ++ B)[i]? = some x) (hy : (A ++ B)[j]? = some y)
    (hPx : P x) (hPy : ¬P y) : i < j := by
  have hiA : i < A.length := by
    by_contra hge
    push_neg at hge
    rw [List.getElem?_append_right hge] at hx
    exact hB x (List.getElem?_mem hx) hPx
  have hjA : A.length ≤ j := by
    by_contra hlt
    push_neg at hlt
    rw [List.getElem?_append_left hlt] at hy
    exact hPy (hA y (List.getElem?_mem hy))
  omega

/-- C2: when `_flushRemoteQueue` runs (a flush is pending), it clears the
three buckets, and the operations are applied as all queued deletions, then
all queued hasMany updates, then all queued belongsTo updates, each sub-list
in push order but regardless of the interleaving in which the operations were
pushed; consequently every queued deletion is applied before every queued
hasMany update, which is applied before every queued belongsTo update. -/
theorem C2_flush_fixed_order (kindOf : Ident → Field → RelKind)
    (g0 g1 : GraphQueues) (ops : List RemoteOp)
    (hempty : g0.pushedUpdates = { belongsTo := [], hasMany := [], deletions := [] })
    (hpush : Graph.pushAll kindOf g0 ops = .ok g1)
    (hwill : g1.willSyncRemote = true) :
    (Graph.flushRemoteQueue g1).1.pushedUpdates
        = { belongsTo := [], hasMany := [], deletions := [] } ∧
    (Graph.flushRemoteQueue g1).1.willSyncRemote = false ∧
    (Graph.flushRemoteQueue g1).2
      = ops.filter (fun op => classifyOp kindOf op == Bucket.deletions)
        ++ ops.filter (fun op => classifyOp kindOf op == Bucket.hasMany)
        ++ ops.filter (fun op => classifyOp kindOf op == Bucket.belongsTo) ∧
    (∀ (i j : ℕ) (x y : RemoteOp), (Graph.flushRemoteQueue g1).2[i]? = some x →
      (Graph.flushRemoteQueue g1).2[j]? = some y →
      classifyOp kindOf x = Bucket.deletions → classifyOp kindOf y ≠ Bucket.deletions →
      i < j) ∧
    (∀ (i j : ℕ) (x y : RemoteOp), (Graph.flushRemoteQueue g1).2[i]? = some x →
      (Graph.flushRemoteQueue g1).2[j]? = some y →
      classifyOp kindOf x ≠ Bucket.belongsTo → classifyOp kindOf y = Bucket.belongsTo →
      i < j) := by
  obtain ⟨hd, hh, hb⟩ := pushAll_ok_buckets hpush
  rw [hempty] at hd hh hb
  simp only [List.nil_append] at hd hh hb
  have hflush1 : (Graph.flushRemoteQueue g1).1
      = { g1 with
          willSyncRemote := false
          pushedUpdates := { belongsTo := [], hasMany := [], deletions := [] } } := by
    simp [Graph.flushRemoteQueue, hwill]
  have hflush2 : (Graph.flushRemoteQueue g1).2
      = g1.pushedUpdates.deletions ++ g1.pushedUpdates.hasMany
        ++ g1.pushedUpdates.belongsTo := by
    simp [Graph.flushRemoteQueue, hwill]
  have htrace : (Graph.flushRemoteQueue g1).2
      = ops.filter (fun op => classifyOp kindOf op == Bucket.deletions)
        ++ ops.filter (fun op => classifyOp kindOf op == Bucket.hasMany)
        ++ ops.filter (fun op => classifyOp kindOf op == Bucket.belongsTo) := by
    rw [hflush2, hd, hh, hb]
  refine ⟨by rw [hflush1], by rw [hflush1], htrace, ?_, ?_⟩
  · intro i j x y hx hy hcx hcy
    rw [htrace, List.append_assoc] at hx hy
    have hA : ∀ a ∈ ops.filter (fun op => classifyOp kindOf op == Bucket.deletions),
        classifyOp kindOf a = Bucket.deletions :=
      fun a ha => by
        simp only [List.mem_filter, beq_iff_eq] at ha
        exact ha.2
    have hB : ∀ b ∈ ops.filter (fun op => classifyOp kindOf op == Bucket.hasMany)
        ++ ops.filter (fun op => classifyOp kindOf op == Bucket.belongsTo),
        ¬classifyOp kindOf b = Bucket.deletions := by
      intro b hb2
      rcases List.mem_append.mp hb2 with h2 | h2 <;>
        · simp only [List.mem_filter, beq_iff_eq] at h2
          simp [h2.2]
    exact @getElem?_lt_of_append_split RemoteOp
      (fun z => classifyOp kindOf z = Bucket.deletions) _ _ hA hB i j x y hx hy hcx hcy
  · intro i j x y hx hy hcx hcy
    rw [htrace] at hx hy
    have hA : ∀ a ∈ ops.filter (fun op => classifyOp kindOf op == Bucket.deletions)
        ++ ops.filter (fun op => classifyOp kindOf op == Bucket.hasMany),
        classifyOp kindOf a ≠ Bucket.belongsTo := by
      intro a ha
      rcases List.mem_append.mp ha with h2 | h2 <;>
        · simp only [List.mem_filter, beq_iff_eq] at h2
          simp [h2.2]
    have hB : ∀ b ∈ ops.filter (fun op => classifyOp kindOf op == Bucket.belongsTo),
        ¬classifyOp kindOf b ≠ Bucket.belongsTo := by
      intro b hb2 hne
      simp only [List.mem_filter, beq_iff_eq] at hb2
      exact hne hb2.2
    exact @getElem?_lt_of_append_split RemoteOp
      (fun z => classifyOp kindOf z ≠ Bucket.belongsTo) _ _ hA hB i j x y hx hy hcx
      (fun hne => hne hcy)

/-- Concrete operations for the C2 witness: one belongsTo replace, one hasMany
update, one deletion, pushed in reverse of the flush order. -/
def opsC2 : List RemoteOp :=
  [{ op := .replaceRelatedRecord, record := 0, field := 0 },
   { op := .addToRelatedRecords, record := 1, field := 1 },
   { op := .deleteRecord, record := 2, field := 2 }]

/-- The queue state after pushing `opsC2` onto a fresh graph (every field is
`hasMany` for the kind-resolution stub). -/
def pushedC2 : GraphQueues :=
  { pushedUpdates :=
      { belongsTo := [{ op := .replaceRelatedRecord, record := 0, field := 0 }]
        hasMany := [{ op := .addToRelatedRecords, record := 1, field := 1 }]
        deletions := [{ op := .deleteRecord, record := 2, field := 2 }] }
    willSyncRemote := true
    willSyncLocal := false
    updatedRelationships := ∅
    scheduled := [QueueName.coalesce] }

theorem C2_flush_fixed_order_witness :
    graphQueuesInit.pushedUpdates = { belongsTo := [], hasMany := [], deletions := [] } ∧
    Graph.pushAll (fun _ _ => RelKind.hasMany) graphQueuesInit opsC2 = .ok pushedC2 ∧
    pushedC2.willSyncRemote = true ∧
    (Graph.flushRemoteQueue pushedC2).2
      = [{ op := .deleteRecord, record := 2, field := 2 },
         { op := .addToRelatedRecords, record := 1, field := 1 },
         { op := .replaceRelatedRecord, record := 0, field := 0 }] :=
  have h := C2_flush_fixed_order (fun _ _ => RelKind.hasMany) graphQueuesInit pushedC2
    opsC2 rfl rfl rfl
  ⟨rfl, rfl, rfl, h.2.2.1.trans (by decide)⟩

/-- C8: at most one flush is pending per queue. A successful `push` schedules
the remote flush callback only when `_willSyncRemote` is false and sets the
flag; `_scheduleLocalSync` schedules the local flush callback only when
`_willSyncLocal` is false and sets the flag; each flush returns without doing
anything when its flag is not set, and clears its flag at the start
otherwise. -/
theorem C8_single_pending_flush_per_queue (kindOf : Ident → Field → RelKind)
    (g g1 : GraphQueues) (op : RemoteOp) (r : ℕ)
    (hok : Graph.push kindOf g op = .ok g1) :
    (g.willSyncRemote = true → g1.scheduled = g.scheduled ∧ g1.willSyncRemote = true) ∧
    (g.willSyncRemote = false →
      g1.scheduled = g.scheduled ++ [QueueName.coalesce] ∧ g1.willSyncRemote = true) ∧
    (g.willSyncLocal = true →
      (Graph.scheduleLocalSync g r).scheduled = g.scheduled ∧
      (Graph.scheduleLocalSync g r).willSyncLocal = true) ∧
    (g.willSyncLocal = false →
      (Graph.scheduleLocalSync g r).scheduled = g.scheduled ++ [QueueName.sync] ∧
      (Graph.scheduleLocalSync g r).willSyncLocal = true) ∧
    (g.willSyncRemote = false → Graph.flushRemoteQueue g = (g, [])) ∧
    (g.willSyncRemote = true → (Graph.flushRemoteQueue g).1.willSyncRemote = false) ∧
    (g.willSyncLocal = false → Graph.flushLocalQueue g = (g, ∅)) ∧
    (g.willSyncLocal = true → (Graph.flushLocalQueue g).1.willSyncLocal = false) := by
  have hform := push_ok_form hok
  have hsched : g1.scheduled
      = g.scheduled ++ (if g.willSyncRemote then [] else [QueueName.coalesce]) := by
    rw [hform, scheduleRemote_scheduled]
  have hwill : g1.willSyncRemote = true := by
    rw [hform, scheduleRemote_willSyncRemote]
  refine ⟨fun hw => ⟨by simp [hsched, hw], hwill⟩,
    fun hw => ⟨by simp [hsched, hw], hwill⟩, ?_, ?_, ?_, ?_, ?_, ?_⟩
  · intro hw
    constructor <;> simp [Graph.scheduleLocalSync, hw]
  · intro hw
    constructor <;> simp [Graph.scheduleLocalSync, hw]
  · intro hw
    simp [Graph.flushRemoteQueue, hw]
  · intro hw
    simp [Graph.flushRemoteQueue, hw]
  · intro hw
    simp [Graph.flushLocalQueue, hw]
  · intro hw
    simp [Graph.flushLocalQueue, hw]

/-- The queue state after pushing one deletion onto a fresh graph. -/
def pushedC8 : GraphQueues :=
  { pushedUpdates :=
      { belongsTo := [], hasMany := []
        deletions := [{ op := .deleteRecord, record := 0, field := 0 }] }
    willSyncRemote := true
    willSyncLocal := false
    updatedRelationships := ∅
    scheduled := [QueueName.coalesce] }

theorem C8_single_pending_flush_per_queue_witness :
    graphQueuesInit.willSyncRemote = false ∧
    pushedC8.scheduled = graphQueuesInit.scheduled ++ [QueueName.coalesce] ∧
    pushedC8.willSyncRemote = true ∧
    Graph.flushLocalQueue graphQueuesInit = (graphQueuesInit, ∅) :=
  have h := C8_single_pending_flush_per_queue (fun _ _ => RelKind.hasMany)
    graphQueuesInit pushedC8 { op := .deleteRecord, record := 0, field := 0 } 0 rfl
  ⟨rfl, (h.2.1 rfl).1, (h.2.1 rfl).2, h.2.2.2.2.2.2.1 rfl⟩

/-! ## The transaction-ref protocol (`_addToTransaction`, `_finalize`) -/

/-- The projection of graph/edge state the transaction protocol touches:
`_transaction` (null, or the set of touched relationships, identified by
numeric keys) together with every relationship's `transactionRef` counter. -/
structure TxState where
  transaction : Option (Finset ℕ)
  transactionRef : ℕ → ℕ

/-- The transaction fields at rest: the `Graph` constructor sets
`_transaction = null` and the edge factories set `transactionRef: 0`. -/
def txInit : TxState :=
  { transaction := none, transactionRef := fun _ => 0 }

/-- The `this._transaction = new Set()` step at the top of
`_flushRemoteQueue`. -/
def openTransaction (s : TxState) : TxState :=
  { s with transaction := some ∅ }

/-- `Graph._addToTransaction`: asserts an open transaction, increments the
relationship's `transactionRef` and records it in the transaction set. -/
def addToTransaction (s : TxState) (e : ℕ) : Except String TxState :=
  match s.transaction with
  | none => .error "expected a transaction"
  | some t =>
      .ok { transaction := some (insert e t)
            transactionRef := fun x =>
              if x = e then s.transactionRef x + 1 else s.transactionRef x }

/-- `Graph._finalize`: when a transaction is open, reset every touched
relationship's `transactionRef` to zero and clear the handle; a no-op when no
transaction is open. -/
def txFinalize (s : TxState) : TxState :=
  match s.transaction with
  | some t =>
      { transaction := none
        transactionRef := fun x => if x ∈ t then 0 else s.transactionRef x }
  | none => s

/-- The `_addToTransaction` calls issued by the operations applied during one
flush, in order (a failed add, impossible mid-flush, leaves the state
unchanged). -/
def applyAdds (s : TxState) (touched : List ℕ) : TxState :=
  match touched with
  | [] => s
  | e :: rest =>
      match addToTransaction s e with
      | .ok s2 => applyAdds s2 rest
      | .error _ => applyAdds s rest

/-- One complete coalesced remote flush, seen by the transaction state: open
the transaction, apply the operations (touching relationships), finalize. -/
def txFlushRun (s : TxState) (touched : List ℕ) : TxState :=
  txFinalize (applyAdds (openTransaction s) touched)

/-- The mid-flush invariant: a nonzero `transactionRef` implies an open
transaction containing that relationship. -/
def txInv (s : TxState) : Prop :=
  ∀ e, s.transactionRef e ≠ 0 → ∃ t, s.transaction = some t ∧ e ∈ t

theorem txInv_addToTransaction {s s2 : TxState} {e : ℕ} (hinv : txInv s)
    (h : addToTransaction s e = .ok s2) : txInv s2 := by
  unfold addToTransaction at h
  cases htr : s.transaction with
  | none => rw [htr] at h; cases h
  | some t =>
      rw [htr] at h
      cases h
      intro x hx
      refine ⟨insert e t, rfl, ?_⟩
      by_cases hxe : x = e
      · simp [hxe]
      · simp only [hxe, if_neg, ite_false] at hx
        obtain ⟨t2, ht2, hmem⟩ := hinv x hx
        rw [htr] at ht2
        cases ht2
        exact Finset.mem_insert_of_mem hmem
  -- (the error branch is impossible given `h`)

theorem txInv_applyAdds {s : TxState} {touched : List ℕ} (hinv : txInv s) :
    txInv (applyAdds s touched) := by
  induction touched generalizing s with
  | nil => exact hinv
  | cons e rest ih =>
      unfold applyAdds
      cases h : addToTransaction s e with
      | ok s2 => exact ih (txInv_addToTransaction hinv h)
      | error msg => exact ih hinv

theorem txInv_txFinalize_allZero {s : TxState} (hinv : txInv s) :
    ∀ x, (txFinalize s).transactionRef x = 0 := by
  intro x
  unfold txFinalize
  cases htr : s.transaction with
  | none =>
      by_contra hx
      obtain ⟨t, ht, _⟩ := hinv x hx
      rw [htr] at ht
      cases ht
  | some t =>
      by_cases hxt : x ∈ t
      · simp [hxt]
      · simp only [hxt, ite_false]
        by_contra hx
        obtain ⟨t2, ht2, hmem⟩ := hinv x hx
        rw [htr] at ht2
        cases ht2
        exact hxt hmem

/-- C4: `_addToTransaction` fails without an open transaction, and otherwise
increments the edge's `transactionRef` and records the edge in the open
transaction set; `_finalize` resets every touched edge's `transactionRef` to
zero and clears the handle; mid-flush, a nonzero `transactionRef` implies the
open transaction contains that edge; and a complete flush run starting from an
at-rest state (no transaction, all refs zero) ends with no transaction and
every edge's `transactionRef` zero — outside a flush every `transactionRef`
is zero. -/
theorem C4_transactionRef_zero_outside_flush (s : TxState) (e : ℕ)
    (touched : List ℕ)
    (hzero : ∀ x, s.transactionRef x = 0) (hnone : s.transaction = none) :
    addToTransaction s e = .error "expected a transaction" ∧
    (∀ (s3 : TxState) (t3 : Finset ℕ) (e3 : ℕ) (s4 : TxState),
      s3.transaction = some t3 → addToTransaction s3 e3 = .ok s4 →
      s4.transactionRef e3 = s3.transactionRef e3 + 1 ∧
      s4.transaction = some (insert e3 t3)) ∧
    (∀ (s3 : TxState) (t3 : Finset ℕ), s3.transaction = some t3 →
      (txFinalize s3).transaction = none ∧
      ∀ x ∈ t3, (txFinalize s3).transactionRef x = 0) ∧
    (∀ x, (applyAdds (openTransaction s) touched).transactionRef x ≠ 0 →
      ∃ tx, (applyAdds (openTransaction s) touched).transaction = some tx ∧ x ∈ tx) ∧
    (txFlushRun s touched).transaction = none ∧
    (∀ x, (txFlushRun s touched).transactionRef x = 0) := by
  have hopen : txInv (openTransaction s) := by
    intro x hx
    exact absurd (hzero x) hx
  have hmid : txInv (applyAdds (openTransaction s) touched) := txInv_applyAdds hopen
  refine ⟨?_, ?_, ?_, hmid, ?_, ?_⟩
  · unfold addToTransaction
    rw [hnone]
  · intro s3 t3 e3 s4 ht3 hok
    unfold addToTransaction at hok
    rw [ht3] at hok
    cases hok
    exact ⟨by simp, rfl⟩
  · intro s3 t3 ht3
    unfold txFinalize
    rw [ht3]
    exact ⟨rfl, fun x hx => by simp [hx]⟩
  · show (txFinalize (applyAdds (openTransaction s) touched)).transaction = none
    unfold txFinalize
    cases htr : (applyAdds (openTransaction s) touched).transaction <;> simp
    · next =>
        -- transaction is `none` already: `txFinalize` is the identity on it
        exact htr
  · exact txInv_txFinalize_allZero hmid

theorem C4_transactionRef_zero_outside_flush_witness :
    addToTransaction txInit 0 = .error "expected a transaction" ∧
    (txFlushRun txInit [5]).transaction = none ∧
    (txFlushRun txInit [5]).transactionRef 5 = 0 :=
  have h := C4_transactionRef_zero_outside_flush txInit 0 [5] (fun _ => rfl) rfl
  ⟨h.1, h.2.2.2.2.1, h.2.2.2.2.2 5⟩

/-! ## The node table (`Graph.has` / `get` / `remove` / `destroy`) -/

/-- Modelled from the spec: the resource (belongsTo) edge of
`edges/resource.ts` (not under src/): one remote value and one local value
(identifier or null/unknown), `meta`/`links`, an edge-state block, and the
`transactionRef` counter. -/
structure ResourceRelationship where
  definition : UpgradedMeta
  identifier : Ident
  state : RelationshipState
  localState : Option Ident
  remoteState : Option Ident
  meta : Option ℕ
  links : Option ℕ
  transactionRef : ℕ
deriving DecidableEq

/-- Modelled from the spec: `createResourceRelationship` (not under src/) —
a fresh resource edge with empty/null values. -/
def createResourceRelationship (definition : UpgradedMeta) (identifier : Ident) :
    ResourceRelationship :=
  { definition := definition
    identifier := identifier
    state := createState
    localState := none
    remoteState := none
    meta := none
    links := none
    transactionRef := 0 }

/-- `ImplicitRelationship` from `graph.ts`: definition, owning identifier and
the two membership sets. -/
structure ImplicitRelationship where
  definition : UpgradedMeta
  identifier : Ident
  localMembers : Finset Ident
  remoteMembers : Finset Ident
deriving DecidableEq

/-- `RelationshipEdge`: the three edge shapes stored in the node table. -/
inductive RelationshipEdge
  | collection : CollectionRelationship → RelationshipEdge
  | resource : ResourceRelationship → RelationshipEdge
  | implicitRel : ImplicitRelationship → RelationshipEdge
deriving DecidableEq

/-- A node's edge dictionary (`Dict<RelationshipEdge>`): `none` models an
absent / `undefined` key. -/
abbrev NodeDict := Field → Option RelationshipEdge

/-- The node table `Graph.identifiers` (`Map<identifier, Dict>`). -/
abbrev NodeTable := Ident → Option NodeDict

/-- The projection of `Graph` state that the node-table lifecycle code
touches: `identifiers`, `_removing`, `store` (null after destroy) and
`isDestroyed`. -/
structure GraphNodes where
  identifiers : NodeTable
  removing : Option Ident
  store : Option ℕ
  isDestroyed : Bool

/-- `Graph.has`: true iff the node exists and has a resolved (non-undefined)
edge for the field; triggers no resolution. -/
def Graph.has (g : GraphNodes) (identifier : Ident) (propertyName : Field) : Bool :=
  match g.identifiers identifier with
  | none => false
  | some relationships => (relationships propertyName).isSome

/-- `Graph.get`: ensure the node's edge dictionary exists (creating and
storing an empty one if absent), then return the stored edge for the field,
or create, store and return a fresh edge shaped by the resolved definition.
`upgrade` abstracts `upgradeDefinition` plus the `isLHS` side choice
(`-edge-definition.ts` is not under src/); `upgrade _ _ = none` models the
"Could not determine relationship information" assert failing. -/
def Graph.get (upgrade : Ident → Field → Option UpgradedMeta) (g : GraphNodes)
    (identifier : Ident) (propertyName : Field) :
    Except String (GraphNodes × RelationshipEdge) :=
  let relationships : NodeDict :=
    match g.identifiers identifier with
    | some r => r
    | none => fun _ => none
  let g1 : GraphNodes :=
    match g.identifiers identifier with
    | some _ => g
    | none =>
        { g with identifiers :=
            fun i => if i = identifier then some relationships else g.identifiers i }
  match relationships propertyName with
  | some relationship => .ok (g1, relationship)
  | none =>
      match upgrade identifier propertyName with
      | none => .error "Could not determine relationship information"
      | some meta =>
          let relationship : RelationshipEdge :=
            match meta.kind with
            | .belongsTo => .resource (createResourceRelationship meta identifier)
            | .hasMany => .collection (createCollectionRelationship meta identifier)
            | .implicit =>
                .implicitRel
                  { definition := meta
                    identifier := identifier
                    localMembers := ∅
                    remoteMembers := ∅ }
          let relationships2 : NodeDict :=
            fun f => if f = propertyName then some relationship else relationships f
          .ok
            ({ g1 with identifiers :=
                fun i => if i = identifier then some relationships2 else g1.identifiers i },
              relationship)

/-- `Graph.remove`: guarded by the "Cannot remove ... while still removing"
assert on `_removing`; sets the marker, unloads the identifier, deletes its
node entry and clears the marker. The effect of `unload` on the node table
(destroying edges and severing inverses; `destroyRelationship` is not under
src/) is abstracted as `unloadFn` — the entry deletion happens afterwards
regardless of what `unload` did. -/
def Graph.remove (unloadFn : NodeTable → Ident → NodeTable) (g : GraphNodes)
    (identifier : Ident) : Except String GraphNodes :=
  match g.removing with
  | some _ => .error "Cannot remove while still removing"
  | none =>
      let g1 := { g with removing := some identifier }
      let tbl := unloadFn g1.identifiers identifier
      .ok { g1 with
        identifiers := fun i => if i = identifier then none else tbl i
        removing := none }

/-- `Graph.destroy`: delete the graph's entry from the global `Graphs`
registry (keyed by its owning store, modelled as a boolean membership map),
clear the node table, null the store and mark the graph destroyed. (The
DEBUG-only second registry deletion under the unwrapped-store key is
omitted.) -/
def Graph.destroy (registry : ℕ → Bool) (g : GraphNodes) : (ℕ → Bool) × GraphNodes :=
  (fun s => if some s = g.store then false else registry s,
    { g with
      identifiers := fun _ => none
      store := none
      isDestroyed := true })

/-- C7: `Graph.remove` fails with the "Cannot remove while still removing"
programming error whenever any removal is in progress (whatever identifier the
marker holds), and on success deletes the identifier's node entry (so `has` is
false for every field afterwards) and clears the in-progress marker, so a
later `remove` does not hit the guard — for any behaviour of the abstracted
`unload` step. -/
theorem C7_remove_guarded_and_complete (unloadFn : NodeTable → Ident → NodeTable)
    (g : GraphNodes) (id id2 : Ident) (f : Field) :
    (∀ x, g.removing = some x →
      Graph.remove unloadFn g id = .error "Cannot remove while still removing") ∧
    (∀ g2, g.removing = none → Graph.remove unloadFn g id = .ok g2 →
      g2.identifiers id = none ∧
      Graph.has g2 id f = false ∧
      g2.removing = none ∧
      ∀ x, Graph.remove unloadFn g2 id2 ≠ .error x) := by
  constructor
  · intro x hx
    unfold Graph.remove
    rw [hx]
  · intro g2 hnone hok
    unfold Graph.remove at hok
    rw [hnone] at hok
    cases hok
    refine ⟨by simp, ?_, rfl, ?_⟩
    · unfold Graph.has
      simp
    · intro x hcontra
      exact Except.noConfusion hcontra

/-- A concrete graph with one node (identifier 1, empty edge dictionary) and
no removal in progress. -/
def gC7 : GraphNodes :=
  { identifiers := fun i => if i = 1 then some (fun _ => none) else none
    removing := none
    store := some 0
    isDestroyed := false }

/-- The expected state after `remove(1)` on `gC7` (with the identity unload
effect). -/
def gC7removed : GraphNodes :=
  { identifiers := fun i => if i = 1 then none else gC7.identifiers i
    removing := none
    store := some 0
    isDestroyed := false }

theorem C7_remove_guarded_and_complete_witness :
    gC7.removing = none ∧
    Graph.remove (fun tbl _ => tbl) gC7 1 = .ok gC7removed ∧
    gC7removed.identifiers 1 = none ∧
    Graph.has gC7removed 1 0 = false ∧
    gC7removed.removing = none ∧
    Graph.remove (fun tbl _ => tbl) gC7removed 2
      ≠ .error "Cannot remove while still removing" :=
  have h := (C7_remove_guarded_and_complete (fun tbl _ => tbl) gC7 1 2 0).2
    gC7removed rfl rfl
  ⟨rfl, rfl, h.1, h.2.1, h.2.2.1, h.2.2.2 "Cannot remove while still removing"⟩

/-- C9 counterexample: the claim's "any subsequent call on the destroyed graph
is a programming error (fails fast)" is false — no method checks
`isDestroyed`. On the destroyed graph, `has` completes normally (returning
`false`), and even `get` succeeds, creating a fresh edge in the cleared
table. -/
theorem C9_counterexample_destroyed_graph_not_guarded :
    (Graph.destroy (fun s => s == 7)
      { identifiers := fun i => if i = 1 then some (fun _ => none) else none
        removing := none
        store := some 7
        isDestroyed := false }).2.isDestroyed = true ∧
    Graph.has (Graph.destroy (fun s => s == 7)
      { identifiers := fun i => if i = 1 then some (fun _ => none) else none
        removing := none
        store := some 7
        isDestroyed := false }).2 1 0 = false ∧
    (Graph.get (fun _ _ => some { kind := .hasMany, key := 0, inverseKey := 1 })
        (Graph.destroy (fun s => s == 7)
          { identifiers := fun i => if i = 1 then some (fun _ => none) else none
            removing := none
            store := some 7
            isDestroyed := false }).2 1 0).isOk = true :=
  ⟨rfl, rfl, rfl⟩

/-- C9 (amended): `destroy()` deletes the graph's registry entry under its
owning store key (leaving other keys untouched), clears the node table, nulls
the store and sets `isDestroyed`; subsequent calls are not guarded — e.g.
`has` on the destroyed graph simply returns `false`. -/
theorem C9_destroy_detaches_clears_marks (registry : ℕ → Bool) (g : GraphNodes)
    (s s2 : ℕ) (id : Ident) (f : Field) :
    (g.store = some s → (Graph.destroy registry g).1 s = false) ∧
    (some s2 ≠ g.store → (Graph.destroy registry g).1 s2 = registry s2) ∧
    (∀ i, (Graph.destroy registry g).2.identifiers i = none) ∧
    (Graph.destroy registry g).2.store = none ∧
    (Graph.destroy registry g).2.isDestroyed = true ∧
    Graph.has (Graph.destroy registry g).2 id f = false := by
  refine ⟨?_, ?_, fun i => rfl, rfl, rfl, rfl⟩
  · intro hs
    simp [Graph.destroy, hs]
  · intro hne
    simp [Graph.destroy, hne]

/-- A concrete graph owned by store 7 for the C9 witness. -/
def gC9 : GraphNodes :=
  { identifiers := fun i => if i = 1 then some (fun _ => none) else none
    removing := none
    store := some 7
    isDestroyed := false }

theorem C9_destroy_detaches_clears_marks_witness :
    (gC9.store = some 7 ∧ (Graph.destroy (fun _ => true) gC9).1 7 = false) ∧
    (some 5 ≠ gC9.store ∧ (Graph.destroy (fun _ => true) gC9).1 5 = true) ∧
    (Graph.destroy (fun _ => true) gC9).2.isDestroyed = true ∧
    Graph.has (Graph.destroy (fun _ => true) gC9).2 1 0 = false :=
  have h := C9_destroy_detaches_clears_marks (fun _ => true) gC9 7 5 1 0
  ⟨⟨rfl, h.1 rfl⟩, ⟨by decide, (h.2.1 (by decide)).trans rfl⟩,
    h.2.2.2.2.1, h.2.2.2.2.2⟩

/-- A successful `get` leaves the returned edge stored in the returned graph's
node entry for the queried field. -/
theorem get_ok_stored {upgrade : Ident → Field → Option UpgradedMeta}
    {g g2 : GraphNodes} {e : RelationshipEdge} {id : Ident} {f : Field}
    (h : Graph.get upgrade g id f = .ok (g2, e)) :
    ∃ dict, g2.identifiers id = some dict ∧ dict f = some e := by
  unfold Graph.get at h
  cases hnode : g.identifiers id with
  | some r =>
      simp only [hnode] at h
      cases hedge : r f with
      | some rel =>
          simp only [hedge, Except.ok.injEq, Prod.mk.injEq] at h
          obtain ⟨hg, he⟩ := h
          subst hg
          subst he
          exact ⟨r, hnode, hedge⟩
      | none =>
          simp only [hedge] at h
          cases hup : upgrade id f with
          | none => simp [hup] at h
          | some m =>
              simp only [hup, Except.ok.injEq, Prod.mk.injEq] at h
              obtain ⟨hg, he⟩ := h
              refine ⟨fun f2 => if f2 = f then some e else r f2, ?_, by simp⟩
              rw [← hg]
              simp [he]
  | none =>
      simp only [hnode] at h
      cases hup : upgrade id f with
      | none => simp [hup] at h
      | some m =>
          simp only [hup, Except.ok.injEq, Prod.mk.injEq] at h
          obtain ⟨hg, he⟩ := h
          refine ⟨fun f2 => if f2 = f then some e else none, ?_, by simp⟩
          rw [← hg]
          simp [he]

/-- `get` on a graph that already stores an edge for the field returns that
stored edge and leaves the graph unchanged. -/
theorem get_of_stored {upgrade : Ident → Field → Option UpgradedMeta}
    {g : GraphNodes} {dict : NodeDict} {e : RelationshipEdge} {id : Ident} {f : Field}
    (hnode : g.identifiers id = some dict) (hedge : dict f = some e) :
    Graph.get upgrade g id f = .ok (g, e) := by
  unfold Graph.get
  simp only [hnode, hedge]

/-- When the edge was absent, a successful `get` resolved a definition and the
returned edge is the freshly created one whose shape matches the resolved
kind. -/
theorem get_ok_created {upgrade : Ident → Field → Option UpgradedMeta}
    {g g2 : GraphNodes} {e : RelationshipEdge} {id : Ident} {f : Field}
    (h : Graph.get upgrade g id f = .ok (g2, e)) (hhas : Graph.has g id f = false) :
    ∃ m, upgrade id f = some m ∧
      (m.kind = .belongsTo → e = .resource (createResourceRelationship m id)) ∧
      (m.kind = .hasMany → e = .collection (createCollectionRelationship m id)) ∧
      (m.kind = .implicit →
        e = .implicitRel
          { definition := m, identifier := id
            localMembers := ∅, remoteMembers := ∅ }) := by
  unfold Graph.has at hhas
  unfold Graph.get at h
  cases hnode : g.identifiers id with
  | some r =>
      simp only [hnode] at h hhas
      cases hedge : r f with
      | some rel => rw [hedge] at hhas; simp at hhas
      | none =>
          simp only [hedge] at h
          cases hup : upgrade id f with
          | none => simp [hup] at h
          | some m =>
              simp only [hup, Except.ok.injEq, Prod.mk.injEq] at h
              obtain ⟨hg, he⟩ := h
              subst he
              refine ⟨m, rfl, ?_, ?_, ?_⟩ <;> intro hk <;> simp [hk]
  | none =>
      simp only [hnode] at h
      cases hup : upgrade id f with
      | none => simp [hup] at h
      | some m =>
          simp only [hup, Except.ok.injEq, Prod.mk.injEq] at h
          obtain ⟨hg, he⟩ := h
          subst he
          refine ⟨m, rfl, ?_, ?_, ?_⟩ <;> intro hk <;> simp [hk]

/-- C10: `Graph.get` is idempotent and caching: after a successful
`get(id, field)`, the returned edge is stored in the node entry, a second
`get(id, field)` returns the identical stored edge with the graph unchanged,
`has(id, field)` is true, and — when the edge did not exist before — the
created edge's shape matches the resolved definition's kind. -/
theorem C10_get_idempotent_caching (upgrade : Ident → Field → Option UpgradedMeta)
    (g g2 : GraphNodes) (e : RelationshipEdge) (id : Ident) (f : Field)
    (h : Graph.get upgrade g id f = .ok (g2, e)) :
    Graph.get upgrade g2 id f = .ok (g2, e) ∧
    Graph.has g2 id f = true ∧
    (Graph.has g id f = false →
      ∃ m, upgrade id f = some m ∧
        (m.kind = .belongsTo → e = .resource (createResourceRelationship m id)) ∧
        (m.kind = .hasMany → e = .collection (createCollectionRelationship m id)) ∧
        (m.kind = .implicit →
          e = .implicitRel
            { definition := m, identifier := id
              localMembers := ∅, remoteMembers := ∅ })) := by
  obtain ⟨dict, hnode2, hedge2⟩ := get_ok_stored h
  refine ⟨get_of_stored hnode2 hedge2, ?_, fun hhas => get_ok_created h hhas⟩
  unfold Graph.has
  simp [hnode2, hedge2]

/-- Kind resolution stub for the C10 witness: every field is `hasMany`. -/
def upgradeC10 : Ident → Field → Option UpgradedMeta :=
  fun _ _ => some { kind := .hasMany, key := 0, inverseKey := 1 }

/-- An empty graph for the C10 witness. -/
def gEmptyN : GraphNodes :=
  { identifiers := fun _ => none
    removing := none
    store := some 0
    isDestroyed := false }

/-- The edge `get(1, 2)` creates on the empty graph under `upgradeC10`. -/
def eC10 : RelationshipEdge :=
  .collection
    (createCollectionRelationship { kind := .hasMany, key := 0, inverseKey := 1 } 1)

/-- The graph after `get(1, 2)` on the empty graph under `upgradeC10`. -/
def gGotC10 : GraphNodes :=
  { identifiers := fun i =>
      if i = 1 then
        some (fun f => if f = 2 then some eC10 else (fun _ => none : NodeDict) f)
      else (fun i2 => if i2 = 1 then some (fun _ => none : NodeDict)
        else gEmptyN.identifiers i2) i
    removing := none
    store := some 0
    isDestroyed := false }

theorem C10_get_idempotent_caching_witness :
    Graph.get upgradeC10 gEmptyN 1 2 = .ok (gGotC10, eC10) ∧
    Graph.get upgradeC10 gGotC10 1 2 = .ok (gGotC10, eC10) ∧
    Graph.has gGotC10 1 2 = true :=
  have h := C10_get_idempotent_caching upgradeC10 gEmptyN gGotC10 eC10 1 2 rfl
  ⟨rfl, h.1, h.2.1⟩

end GraphModel
